import Mathlib

/-
Verification of the account database, block validator, mempool selector,
merkle tree and PoA selection of the adamwoolhether/blockchain node.

The Go sources are embedded shallowly:
* machine integers (Go uint / uint64 / uint32 / uint16) are Nat with
  explicit reduction modulo 2^64 or 2^32 where the Go arithmetic wraps;
* the Go account map is a total function from account ids to accounts,
  missing keys yielding the zero Account, exactly as a Go map read does;
* ECDSA recovery (tx.FromAccount) is abstracted: a BlockTx carries the
  recovery result as an Option AccountID field, none meaning the
  recovery error branch;
* a Go panic (out-of-range slice index) is modelled by Option, none
  standing for the panic.
-/

namespace Blockchain

/-- Modulus of the 64-bit unsigned integers used by Go (2 ^ 64). -/
def w64 : Nat := 18446744073709551616

/-- Modulus of the 32-bit unsigned integers used by Go (2 ^ 32). -/
def w32 : Nat := 4294967296

/-- Wrapping 64-bit addition, as Go computes x + y on uint64. -/
def addW (x y : Nat) : Nat := (x + y) % w64

/-- Wrapping 64-bit multiplication, as Go computes x * y on uint64. -/
def mulW (x y : Nat) : Nat := (x * y) % w64

/-- Wrapping 64-bit subtraction, as Go computes x - y on uint64
(operands below 2 ^ 64). -/
def subW (x y : Nat) : Nat := (x + w64 - y % w64) % w64

/-- AccountID from database/account.go: the 0x-prefixed hex address
string; its exact derivation from the public key is irrelevant here. -/
abbrev AccountID := String

/-- Account from database/account.go: balance and nonce, both uint64.
The Go zero value has balance 0 and nonce 0. -/
structure Account where
  balance : Nat
  nonce : Nat
deriving Repr, DecidableEq

/-- The account map of Database.accounts. A read of a missing key in Go
returns the zero Account, so the map is a total function. -/
abbrev AccountMap := AccountID → Account

/-- Go map assignment db.accounts[id] = a. -/
def updAcct (m : AccountMap) (id : AccountID) (a : Account) : AccountMap :=
  fun x => if x = id then a else m x

/-- Genesis from genesis/genesis.go, restricted to the fields the
database operations read. -/
structure Genesis where
  chainID : Nat
  difficulty : Nat
  transPerBlock : Nat
  miningReward : Nat
  gasPrice : Nat
deriving Repr, DecidableEq

/-- BlockTx as used by Database.ApplyTx: the signed transaction plus the
gas fields. fromSig is the result of tx.FromAccount(), the abstracted
ECDSA recovery: some id when recovery yields id, none when it fails. -/
structure BlockTx where
  chainID : Nat
  nonce : Nat
  fromSig : Option AccountID
  toID : AccountID
  value : Nat
  tip : Nat
  gasPrice : Nat
  gasUnits : Nat
deriving Repr, DecidableEq

/-- The error results of Database.ApplyTx, one constructor per return
branch of the Go function. -/
inductive TxError where
  | invalidSignature
  | wrongChain
  | selfTransfer
  | nonceTooSmall
  | insufficientFunds
deriving Repr, DecidableEq

/-- The clamped gas fee of Database.ApplyTx: gasFee := GasPrice * GasUnits,
then gasFee = from.Balance when gasFee exceeds the sender balance. -/
def gasFeeOf (tx : BlockTx) (senderBalance : Nat) : Nat :=
  if mulW tx.gasPrice tx.gasUnits > senderBalance then senderBalance
  else mulW tx.gasPrice tx.gasUnits

/-- Database.ApplyTx from the database package. Returns the account map
after the call together with the error if one was returned; the Go
method mutates db.accounts in place, so the map on the error path keeps
the gas-fee writes that precede the checks. Every arithmetic step and
every map write mirrors one line of the source, in source order. -/
def ApplyTx (gen : Genesis) (accounts : AccountMap) (beneficiaryID : AccountID)
    (tx : BlockTx) : AccountMap × Option TxError :=
  match tx.fromSig with
  | none => (accounts, some TxError.invalidSignature)
  | some fromID =>
    let from0 := accounts fromID
    let to0 := accounts tx.toID
    let bnfc0 := accounts beneficiaryID
    let gasFee := gasFeeOf tx from0.balance
    let from1 : Account := ⟨from0.balance - gasFee, from0.nonce⟩
    let bnfc1 : Account := ⟨addW bnfc0.balance gasFee, bnfc0.nonce⟩
    let acc1 := updAcct (updAcct accounts fromID from1) beneficiaryID bnfc1
    if tx.chainID ≠ gen.chainID then (acc1, some TxError.wrongChain)
    else if fromID = tx.toID then (acc1, some TxError.selfTransfer)
    else if tx.nonce ≤ from1.nonce then (acc1, some TxError.nonceTooSmall)
    else if from1.balance = 0 ∨ from1.balance < addW tx.value tx.tip then
      (acc1, some TxError.insufficientFunds)
    else
      let from2 : Account := ⟨subW (subW from1.balance tx.value) tx.tip, tx.nonce⟩
      let to2 : Account := ⟨addW to0.balance tx.value, to0.nonce⟩
      let bnfc2 : Account := ⟨addW bnfc1.balance tx.tip, bnfc1.nonce⟩
      (updAcct (updAcct (updAcct acc1 fromID from2) tx.toID to2) beneficiaryID bnfc2,
       none)

/-- Database.ApplyMiningReward: credit genesis.MiningReward to the block
beneficiary. -/
def ApplyMiningReward (gen : Genesis) (accounts : AccountMap)
    (beneficiaryID : AccountID) : AccountMap :=
  updAcct accounts beneficiaryID
    ⟨addW (accounts beneficiaryID).balance gen.miningReward,
     (accounts beneficiaryID).nonce⟩

/-- The zero account map: every account is the Go zero value. -/
def emptyAccounts : AccountMap := fun _ => ⟨0, 0⟩

/-- Concrete genesis with chain id 1 used by the concrete instances. -/
def gen1 (reward : Nat) : Genesis := ⟨1, 0, 0, reward, 5⟩

/-- Concrete account map for the gas-aliasing counterexample: account A
holds 100, everything else is zero. -/
def aliasAccounts : AccountMap := updAcct emptyAccounts "A" ⟨100, 0⟩

/-- Concrete transaction for the gas-aliasing counterexample: sender A,
wrong chain id 2, gas fee 5 * 1. -/
def aliasTx : BlockTx := ⟨2, 1, some "A", "B", 0, 0, 5, 1⟩

/-- Concrete account map for the single-tx block scenario: A holds 1000,
everything else is zero. -/
def scenarioAccounts : AccountMap := updAcct emptyAccounts "A" ⟨1000, 0⟩

/-- Concrete transaction of the single-tx block scenario: nonce 1, from A
to B, value 100, tip 10, gas price 5, gas units 1, chain id 1. -/
def scenarioTx : BlockTx := ⟨1, 1, some "A", "B", 100, 10, 5, 1⟩

/-- Concrete account map for the nonce-replay counterexample: account A
holds 1000 and has nonce 5. -/
def replayAccounts : AccountMap := updAcct emptyAccounts "A" ⟨1000, 5⟩

/-- Concrete replayed transaction with nonce 5 and wrong chain id 2. -/
def replayTxWrongChain : BlockTx := ⟨2, 5, some "A", "B", 10, 1, 5, 1⟩

/-- Concrete replayed transaction with nonce 5 and correct chain id 1. -/
def replayTx : BlockTx := ⟨1, 5, some "A", "B", 10, 1, 5, 1⟩

/-- Concrete transaction used by the gas-debit witness: wrong chain id,
sender A distinct from beneficiary M. -/
def witnessTx : BlockTx := ⟨2, 1, some "A", "B", 0, 0, 5, 1⟩

/-- The 17-character constant named match in isHashSolved. -/
def matchZeros : String := "00000000000000000"

/-- The function isHashSolved from database.go. The Go body slices
hash[:difficulty] and match[:difficulty]; a Go slice s[:d] panics when d
exceeds the length of s, so with a 64-character hash the comparison
panics for difficulty above 17 (the length of the match constant), which
the none result models. Hex strings are ASCII, so byte slicing equals
character-list slicing. -/
def isHashSolved (difficulty : Nat) (hash : String) : Option Bool :=
  if hash.length ≠ 64 then some false
  else if difficulty ≤ 17 then
    some (decide (hash.toList.take difficulty = matchZeros.toList.take difficulty))
  else none

/-- Modelled from the spec: the zero-hash sentinel is 0x followed by 64
zeros; the signature package holding it is not among the sources at
hand. -/
def ZeroHash : String :=
  "0x0000000000000000000000000000000000000000000000000000000000000000"

/-- BlockHeader from database.go. -/
structure BlockHeader where
  number : Nat
  prevBlockHash : String
  timeStamp : Nat
  beneficiaryID : AccountID
  difficulty : Nat
  miningReward : Nat
  transRoot : String
  nonce : Nat
deriving Repr, DecidableEq

/-- Block from database.go. transMerkleRootHex stands for the value of
Transactions.MerkleRootHex(), the hex root of the merkle tree the block
carries. -/
structure Block where
  header : BlockHeader
  transMerkleRootHex : String
deriving Repr, DecidableEq

/-- Block.Hash from database.go: the zero hash for the empty block
number 0, otherwise signature.Hash of the header only. The parameter
hashFn abstracts signature.Hash, which lives outside the sources at
hand; per the spec it returns a hex64 string. -/
def blockHash (hashFn : BlockHeader → String) (b : Block) : String :=
  if b.header.number = 0 then ZeroHash else hashFn b.header

/-- Go conversion int64(u) of a uint64 value u, as used on the
timestamps fed to time.Unix. -/
def toInt64 (x : Nat) : Int :=
  if x < 9223372036854775808 then (x : Int) else (x : Int) - (w64 : Int)

/-- The distinct error returns of Block.ValidateBlock, one constructor
per return branch, in source order. -/
inductive BlockError where
  | chainForked
  | difficultyTooLow
  | hashNotSolved
  | notNextNumber
  | parentHashMismatch
  | timestampNotAfter
  | transRootMismatch
deriving Repr, DecidableEq

/-- Outcome of Block.ValidateBlock: success or a named error. -/
inductive ValidateResult where
  | ok
  | err (e : BlockError)
deriving Repr, DecidableEq

/-- Block.ValidateBlock from database.go, checks in source order: chain
fork (number at least nextNumber + 2 where nextNumber is the parent
number plus one), difficulty monotone, hash puzzle, next number, parent
hash, timestamp strictly after the parent when the parent timestamp is
positive, merkle root. The none result propagates the isHashSolved
panic. -/
def ValidateBlock (hashFn : BlockHeader → String) (b prevBlock : Block) :
    Option ValidateResult :=
  let nextNumber := addW prevBlock.header.number 1
  if b.header.number ≥ addW nextNumber 2 then
    some (ValidateResult.err BlockError.chainForked)
  else if b.header.difficulty < prevBlock.header.difficulty then
    some (ValidateResult.err BlockError.difficultyTooLow)
  else
    match isHashSolved b.header.difficulty (blockHash hashFn b) with
    | none => none
    | some false => some (ValidateResult.err BlockError.hashNotSolved)
    | some true =>
      if b.header.number ≠ nextNumber then
        some (ValidateResult.err BlockError.notNextNumber)
      else if b.header.prevBlockHash ≠ blockHash hashFn prevBlock then
        some (ValidateResult.err BlockError.parentHashMismatch)
      else if prevBlock.header.timeStamp > 0 ∧
          ¬ toInt64 prevBlock.header.timeStamp < toInt64 b.header.timeStamp then
        some (ValidateResult.err BlockError.timestampNotAfter)
      else if b.header.transRoot ≠ b.transMerkleRootHex then
        some (ValidateResult.err BlockError.transRootMismatch)
      else some ValidateResult.ok

/-- A concrete 64-character hash value used by the concrete instances. -/
def constHash64 : String :=
  "aaaaaaaaaaaaaaaaaaaaaaaaaaaaaaaaaaaaaaaaaaaaaaaaaaaaaaaaaaaaaaaa"

/-- A concrete stand-in for signature.Hash returning constHash64. -/
def constHashFn : BlockHeader → String := fun _ => constHash64

/-- Concrete parent block at number 10, difficulty 0. -/
def prevB : Block := ⟨⟨10, "", 0, "M", 0, 0, "", 0⟩, ""⟩

/-- Concrete candidate block at number 12, two ahead of the parent. -/
def plusTwoB : Block := ⟨⟨12, "", 0, "M", 0, 0, "", 0⟩, ""⟩

/-- Concrete candidate block at number 13, three ahead of the parent. -/
def plusThreeB : Block := ⟨⟨13, "", 0, "M", 0, 0, "", 0⟩, ""⟩

/-- Concrete block at number 1 used by the difficulty-0 witness. -/
def blockOne : Block := ⟨⟨1, ZeroHash, 0, "M", 0, 0, "", 0⟩, ""⟩

/-- An item stored in the merkle tree: val is the payload and hsh the
result of the Hash method of the item (a byte string in the source,
abstracted to a number); the Equals method is payload equality. -/
structure MItem where
  val : Nat
  hsh : Nat
deriving Repr, DecidableEq

/-- A leaf node built by Tree.Generate: the stored hash, the value, and
the dup mark set on the appended duplicate leaf. -/
structure MLeaf where
  hash : Nat
  value : MItem
  dup : Bool
deriving Repr, DecidableEq

/-- The leaf phase of Tree.Generate from merkle.go: refuse zero items,
hash each item into a leaf, and append a marked duplicate of the last
leaf when the count is odd. Tree.Values reads only the leaf list, so the
interior nodes that buildIntermediate adds are not modelled. The
getLastD default is unreachable because the items are non-empty in that
branch. -/
def generateLeaves (items : List MItem) : Option (List MLeaf) :=
  if items.isEmpty then none
  else
    let leaves := items.map (fun it => MLeaf.mk it.hsh it false)
    if leaves.length % 2 = 1 then
      let last := leaves.getLastD (MLeaf.mk 0 ⟨0, 0⟩ false)
      some (leaves ++ [MLeaf.mk last.hash last.value true])
    else some leaves

/-- Tree.Values from merkle.go: collect every leaf value, then drop the
last one exactly when the hashes of the last two leaves are equal; the
code compares the hashes of Leaves[l-1] and Leaves[l-2], never the dup
mark. Fewer than two leaves would read the out-of-range index l-2 and
panic, modelled by none; Generate always yields at least two leaves. -/
def treeValues (leaves : List MLeaf) : Option (List MItem) :=
  match leaves.reverse with
  | a :: b :: _ =>
    some (if a.hash = b.hash then (leaves.map (fun lf => lf.value)).dropLast
          else leaves.map (fun lf => lf.value))
  | _ => none

/-- Concrete merkle item used by the duplicate-hash counterexample. -/
def dupItem : MItem := ⟨0, 7⟩

/-- Relation of byNonce.Less in selector.go: ascending transaction
nonce. Go sort.Sort may reorder ties arbitrarily; the model uses
insertion sort, which agrees with every such order on slices whose
nonces are distinct, the shape mempool contents always have (one entry
per from:nonce key). -/
def nonceLe (a b : BlockTx) : Prop := a.nonce ≤ b.nonce

instance : DecidableRel nonceLe := fun a b => Nat.decLe a.nonce b.nonce

instance : IsTotal BlockTx nonceLe := ⟨fun a b => Nat.le_total a.nonce b.nonce⟩

instance : IsTrans BlockTx nonceLe := ⟨fun _ _ _ h1 h2 => Nat.le_trans h1 h2⟩

/-- Relation of byTip.Less in selector.go: Less(i, j) compares Tip with
the operator <, so sort.Sort orders the row by ascending tip. -/
def tipLe (a b : BlockTx) : Prop := a.tip ≤ b.tip

instance : DecidableRel tipLe := fun a b => Nat.decLe a.tip b.tip

instance : IsTotal BlockTx tipLe := ⟨fun a b => Nat.le_total a.tip b.tip⟩

instance : IsTrans BlockTx tipLe := ⟨fun _ _ _ h1 h2 => Nat.le_trans h1 h2⟩

/-- The call sort.Sort(byNonce(m[key])) of tipSelect; the source guards
it with len > 1 but sorting a shorter slice is the identity. -/
def sortByNonce (l : List BlockTx) : List BlockTx := List.insertionSort nonceLe l

/-- The call sort.Sort(byTip(row)) of tipSelect. -/
def sortByTip (l : List BlockTx) : List BlockTx := List.insertionSort tipLe l

/-- The per-account transaction map handed to the selector by
Mempool.PickBest, which groups the pool by the account of the from:nonce
mempool key. A Go map iterates in unspecified order; the association
list fixes one order, and the theorems quantify over every list, hence
over every iteration order. -/
abbrev TxMap := List (AccountID × List BlockTx)

/-- One iteration of the row loop of tipSelect: the first transaction of
every account whose slice is still non-empty, in map order. -/
def rowOf (m : TxMap) : List BlockTx := m.filterMap (fun p => p.2.head?)

/-- The map state after one row iteration: every slice loses its head.
The source reassigns m[key] = m[key][1:] only for non-empty slices, and
the tail of an empty slice is empty, so the state agrees. -/
def tailsOf (m : TxMap) : TxMap := m.map (fun p => (p.1, p.2.tail))

/-- Total number of transactions in the map, the termination measure of
the row loop. -/
def totalLen (m : TxMap) : Nat := (m.map (fun p => p.2.length)).sum

/-- The row loop of tipSelect from tip.go: collect a row of first
transactions per account, stop as soon as a row comes out empty. -/
def buildRows (m : TxMap) : List (List BlockTx) :=
  if rowOf m = [] then [] else rowOf m :: buildRows (tailsOf m)
termination_by totalLen m
decreasing_by
  have hle : ∀ l : TxMap, totalLen (tailsOf l) ≤ totalLen l := by
    intro l
    induction l with
    | nil => simp [totalLen, tailsOf]
    | cons q qs ihq =>
      simp only [totalLen, tailsOf, List.map_cons, List.sum_cons,
        List.map_map] at ihq ⊢
      have := List.length_tail q.2
      omega
  have key : ∀ mm : TxMap, rowOf mm ≠ [] → totalLen (tailsOf mm) < totalLen mm := by
    intro mm
    induction mm with
    | nil => intro h; simp [rowOf] at h
    | cons p rest ih =>
      intro h
      cases hp : p.2 with
      | nil =>
        have h2 : rowOf rest ≠ [] := by
          simpa [rowOf, List.filterMap_cons, hp] using h
        have hlt := ih h2
        simp only [totalLen, tailsOf, List.map_cons, List.sum_cons,
          List.map_map, hp] at hlt ⊢
        simpa using hlt
      | cons x xs =>
        have hl2 := hle rest
        simp only [totalLen, tailsOf, List.map_cons, List.sum_cons,
          List.map_map, hp] at hl2 ⊢
        simp only [List.tail_cons, List.length_cons]
        omega
  exact key m (by assumption)

/-- The selection loop of tipSelect from tip.go: take whole rows while
they fit into the remaining need; sort the first row that does not fit
by tip (ascending, per byTip.Less) and take its first need entries, then
stop. -/
def selectRows (howMany : Nat) : List (List BlockTx) → List BlockTx → List BlockTx
  | [], final => final
  | row :: rest, final =>
    if row.length > howMany - final.length then
      final ++ (sortByTip row).take (howMany - final.length)
    else selectRows howMany rest (final ++ row)

/-- tipSelect from tip.go: sort every account slice by nonce, build the
rows, then run the selection loop with an empty accumulator. -/
def tipSelect (m : TxMap) (howMany : Nat) : List BlockTx :=
  selectRows howMany (buildRows (m.map (fun p => (p.1, sortByNonce p.2)))) []

/-- Concrete transaction of sender X with nonce 1 and tip 1. -/
def txX1 : BlockTx := ⟨1, 1, some "X", "R", 0, 1, 0, 0⟩

/-- Concrete transaction of sender X with nonce 2 and tip 100. -/
def txX2 : BlockTx := ⟨1, 2, some "X", "R", 0, 100, 0, 0⟩

/-- Concrete transaction of sender Y with nonce 1 and tip 50. -/
def txY1 : BlockTx := ⟨1, 1, some "Y", "R", 0, 50, 0, 0⟩

/-- Concrete mempool content with the X slice out of nonce order. -/
def wMempool : TxMap := [("X", [txX2, txX1]), ("Y", [txY1])]

/-- Peer from peer.go: a host name, equality by host. -/
structure Peer where
  Host : String
deriving Repr, DecidableEq

/-- Set.Copy from peer.go: every stored peer whose host does not match
the argument. The set is a Go map keyed by Peer with unspecified
iteration order; the list fixes one order and theorems quantify over
every list. -/
def setCopy (s : List Peer) (host : String) : List Peer :=
  s.filter (fun p => !(p.Host == host))

/-- State.KnownPeers from the state package: knownPeers.Copy with the
empty host, so every stored peer, this node included, is returned; used
by the PoA selection algorithm. -/
def KnownPeers (s : List Peer) : List Peer := setCopy s ""

/-- The 32-bit FNV-1a hash from hash/fnv as used by Worker.selection:
offset basis 2166136261; per byte, xor then multiply by the prime
16777619 on uint32. -/
def fnv32a (bytes : List Nat) : Nat :=
  bytes.foldl (fun h b => ((h ^^^ b) * 16777619) % w32) 2166136261

/-- The byte sequence of an ASCII string such as a hex block hash. -/
def strBytes (s : String) : List Nat := s.toList.map (fun c => c.toNat)

/-- sort.Strings from Worker.selection: ascending lexicographic order. -/
def sortStrings (l : List String) : List String :=
  List.insertionSort (fun a b => a ≤ b) l

/-- Worker.selection from the PoA worker: collect the known peer hosts
including self, sort them, hash the latest block hash string with
FNV-1a, and return the host at index hash mod count. With no peers the
Go expression integerHash % uint32(len(names)) divides by zero and
panics, modelled by none; host counts are assumed below 2^32 so the Go
uint32 length conversion is exact. -/
def selection (peers : List Peer) (latestBlockHash : String) : Option String :=
  let names := sortStrings (peers.map (fun p => p.Host))
  if h : names.length = 0 then none
  else some (names.get ⟨fnv32a (strBytes latestBlockHash) % names.length,
    Nat.mod_lt _ (Nat.pos_of_ne_zero h)⟩)

/-- The early-return gates of Worker.runPoaOperation, in source order:
mine only when the selected peer is this host, mining is allowed, and
the mempool is non-empty. -/
def runPoaProceeds (selected : Option String) (selfHost : String)
    (allowMining : Bool) (mempoolLength : Nat) : Bool :=
  (selected == some selfHost) && allowMining && (mempoolLength != 0)

/-- Modelled from the spec: the per-cycle PoA leader as the spec words
it — sort the list of all known hosts including self, compute FNV-1a of
the current latest block hash, and select the host at index hash mod
host count. -/
def specPoaLeader (hosts : List String) (latestBlockHash : String) : Option String :=
  let names := sortStrings hosts
  if h : names.length = 0 then none
  else some (names.get ⟨fnv32a (strBytes latestBlockHash) % names.length,
    Nat.mod_lt _ (Nat.pos_of_ne_zero h)⟩)

/-- C1 counterexample. The claim asserts that on every post-gas check
failure the gas fee is debited from the sender and credited to the
beneficiary, the debit remaining in the map. When the sender is also the
block beneficiary, the write db.accounts[beneficiary] = bnfc overwrites
the write db.accounts[fromID] = from that held the debit, and the sender
account ends up credited: balance 100 becomes 105 on a wrong-chain
failure with gas fee 5, instead of staying at 100 (debit plus credit) as
the claim implies, and no debit remains. -/
theorem applyTx_gas_alias_cex :
    (ApplyTx (gen1 0) aliasAccounts "A" aliasTx).2 = some TxError.wrongChain ∧
    ((ApplyTx (gen1 0) aliasAccounts "A" aliasTx).1 "A").balance = 105 ∧
    (aliasAccounts "A").balance = 100 := by
  decide

/-- C1 amended. For a transaction whose sender is distinct from the block
beneficiary, whenever ApplyTx returns one of the post-gas errors (wrong
chain, self transfer, nonce too small, insufficient funds), the gas fee
min(gasPrice * gasUnits, sender balance) has been debited from the sender
and credited to the beneficiary, the sender nonce is unchanged, and every
other account is unchanged. -/
theorem applyTx_error_path_gas (gen : Genesis) (accounts : AccountMap)
    (beneficiaryID fromID : AccountID) (tx : BlockTx) (e : TxError)
    (hsig : tx.fromSig = some fromID)
    (hnb : fromID ≠ beneficiaryID)
    (herr : (ApplyTx gen accounts beneficiaryID tx).2 = some e)
    (hpost : e ≠ TxError.invalidSignature) :
    (ApplyTx gen accounts beneficiaryID tx).1 fromID =
      ⟨(accounts fromID).balance - gasFeeOf tx (accounts fromID).balance,
       (accounts fromID).nonce⟩ ∧
    (ApplyTx gen accounts beneficiaryID tx).1 beneficiaryID =
      ⟨addW (accounts beneficiaryID).balance
        (gasFeeOf tx (accounts fromID).balance),
       (accounts beneficiaryID).nonce⟩ ∧
    ∀ id, id ≠ fromID → id ≠ beneficiaryID →
      (ApplyTx gen accounts beneficiaryID tx).1 id = accounts id := by
  simp only [ApplyTx, hsig] at herr ⊢
  split_ifs at herr ⊢ <;>
    exact ⟨by simp [updAcct, hnb], by simp [updAcct],
      fun id hid1 hid2 => by simp [updAcct, hid1, hid2]⟩

/-- C1 witness: instantiates the amended theorem at the wrong-chain
transaction witnessTx with sender A, beneficiary M, balance 100 and gas
fee 5: the map returned with the error holds the debit on A, the credit
on M, and leaves the unrelated account Z untouched. -/
theorem applyTx_error_path_gas_witness :
    (ApplyTx (gen1 0) aliasAccounts "M" witnessTx).1 "A" = ⟨95, 0⟩ ∧
    (ApplyTx (gen1 0) aliasAccounts "M" witnessTx).1 "M" = ⟨5, 0⟩ ∧
    (ApplyTx (gen1 0) aliasAccounts "M" witnessTx).1 "Z" = ⟨0, 0⟩ := by
  have h := applyTx_error_path_gas (gen1 0) aliasAccounts "M" "A" witnessTx
    TxError.wrongChain rfl (by decide) (by decide) (by decide)
  exact ⟨h.1.trans (by decide), h.2.1.trans (by decide),
    (h.2.2 "Z" (by decide) (by decide)).trans (by decide)⟩

/-- C2. Single-tx block scenario: genesis balances A = 1000, B = 0;
applying the transaction nonce 1, A to B, value 100, tip 10, gas 5 * 1
with beneficiary M and then the mining reward yields A = 885 with
nonce 1, B = 100, and M = miningReward + 10 + 5. -/
theorem singleTxBlock (R : Nat) (hR : R + 15 < w64) :
    (ApplyTx (gen1 R) scenarioAccounts "M" scenarioTx).2 = none ∧
    ApplyMiningReward (gen1 R)
      (ApplyTx (gen1 R) scenarioAccounts "M" scenarioTx).1 "M" "A" = ⟨885, 1⟩ ∧
    ApplyMiningReward (gen1 R)
      (ApplyTx (gen1 R) scenarioAccounts "M" scenarioTx).1 "M" "B" = ⟨100, 0⟩ ∧
    ApplyMiningReward (gen1 R)
      (ApplyTx (gen1 R) scenarioAccounts "M" scenarioTx).1 "M" "M" =
      ⟨R + 15, 0⟩ := by
  refine ⟨rfl, rfl, rfl, ?_⟩
  have h1 : ApplyMiningReward (gen1 R)
      (ApplyTx (gen1 R) scenarioAccounts "M" scenarioTx).1 "M" "M" =
      ⟨addW 15 R, 0⟩ := rfl
  rw [h1]
  simp only [Account.mk.injEq, addW, w64, and_true]
  simp only [w64] at hR
  omega

/-- C2 witness: the scenario at the concrete mining reward 1000000 from
the genesis file, giving M exactly 1000015. -/
theorem singleTxBlock_witness :
    (ApplyTx (gen1 1000000) scenarioAccounts "M" scenarioTx).2 = none ∧
    ApplyMiningReward (gen1 1000000)
      (ApplyTx (gen1 1000000) scenarioAccounts "M" scenarioTx).1 "M" "M" =
      ⟨1000015, 0⟩ := by
  have h := singleTxBlock 1000000 (by norm_num [w64])
  exact ⟨h.1, h.2.2.2.trans (by norm_num)⟩

/-- C3 counterexample. The claim asserts that every transaction whose
nonce is at most the current account nonce fails with NonceTooSmall. The
checks run in source order, so a replayed nonce on the wrong chain fails
with WrongChain instead: account A has nonce 5, the replayed transaction
carries nonce 5 and chain id 2 against genesis chain id 1. -/
theorem applyTx_nonce_replay_wrongchain_cex :
    (ApplyTx (gen1 0) replayAccounts "M" replayTxWrongChain).2 =
      some TxError.wrongChain ∧
    (ApplyTx (gen1 0) replayAccounts "M" replayTxWrongChain).2 ≠
      some TxError.nonceTooSmall := by
  decide

/-- C3 amended. ApplyTx applies the value, tip and nonce update only when
the transaction nonce is strictly greater than the current sender nonce;
and whenever the earlier checks pass (signature recovery, chain id, not a
self transfer) a transaction whose nonce is at most the current sender
nonce fails with NonceTooSmall, the gas fee having been debited from the
sender when the sender is not the beneficiary. -/
theorem applyTx_nonce_gate (gen : Genesis) (accounts : AccountMap)
    (beneficiaryID fromID : AccountID) (tx : BlockTx)
    (hsig : tx.fromSig = some fromID) :
    ((ApplyTx gen accounts beneficiaryID tx).2 = none →
      (accounts fromID).nonce < tx.nonce) ∧
    (tx.chainID = gen.chainID → fromID ≠ tx.toID →
      tx.nonce ≤ (accounts fromID).nonce →
      (ApplyTx gen accounts beneficiaryID tx).2 = some TxError.nonceTooSmall ∧
      (fromID ≠ beneficiaryID →
        (ApplyTx gen accounts beneficiaryID tx).1 fromID =
          ⟨(accounts fromID).balance - gasFeeOf tx (accounts fromID).balance,
           (accounts fromID).nonce⟩)) := by
  constructor
  · intro hnone
    simp only [ApplyTx, hsig] at hnone
    split_ifs at hnone <;> simp_all
  · intro hchain hnself hle
    simp only [ApplyTx, hsig]
    split_ifs with h1 h2 h3 <;> first
      | exact absurd hchain h1
      | exact absurd h2 hnself
      | exact absurd hle (by simpa using h3)
      | exact ⟨rfl, fun hnb => by simp [updAcct, hnb]⟩

/-- C3 witness: account A with nonce 5 and balance 1000, replayed
transaction with nonce 5 on the right chain: ApplyTx fails NonceTooSmall
and the gas fee 5 has been debited from A. -/
theorem applyTx_nonce_gate_witness :
    (ApplyTx (gen1 0) replayAccounts "M" replayTx).2 =
      some TxError.nonceTooSmall ∧
    (ApplyTx (gen1 0) replayAccounts "M" replayTx).1 "A" = ⟨995, 5⟩ := by
  have h := (applyTx_nonce_gate (gen1 0) replayAccounts "M" "A" replayTx
    rfl).2 (by decide) (by decide) (by decide)
  exact ⟨h.1, (h.2 (by decide)).trans (by decide)⟩

/-- C4 counterexample. The claim asserts that a block numbered exactly
prev.number + 2 is rejected with ChainForked. The source condition is
number at least (prev.number + 1) + 2, so number 12 against parent 10
passes the fork check and fails the later number check with the generic
not-the-next-number error instead. -/
theorem validateBlock_plus_two_cex :
    ValidateBlock constHashFn plusTwoB prevB =
      some (ValidateResult.err BlockError.notNextNumber) ∧
    ValidateBlock constHashFn plusTwoB prevB ≠
      some (ValidateResult.err BlockError.chainForked) := by
  decide

/-- C4 amended. ValidateBlock fails with ChainForked exactly when the
block number is at least prev.number + 3, that is when the number
exceeds prev.number + 1 by two or more; the check is first, so no other
field matters, and a block numbered prev.number + 2 is never rejected
with ChainForked. -/
theorem validateBlock_chainForked_iff (hashFn : BlockHeader → String)
    (b prevBlock : Block) (hof : prevBlock.header.number + 3 < w64) :
    ValidateBlock hashFn b prevBlock =
      some (ValidateResult.err BlockError.chainForked) ↔
    prevBlock.header.number + 3 ≤ b.header.number := by
  simp only [w64] at hof
  have hnn : addW (addW prevBlock.header.number 1) 2 =
      prevBlock.header.number + 3 := by
    simp only [addW, w64]
    omega
  simp only [ValidateBlock, hnn]
  by_cases hge : prevBlock.header.number + 3 ≤ b.header.number
  · simp [hge]
  · refine iff_of_false ?_ (by omega)
    rw [if_neg (by omega : ¬ b.header.number ≥ prevBlock.header.number + 3)]
    by_cases hd : b.header.difficulty < prevBlock.header.difficulty
    · simp [hd]
    · rw [if_neg hd]
      cases hiso : isHashSolved b.header.difficulty (blockHash hashFn b) with
      | none => simp
      | some v => cases v <;> simp <;> split_ifs <;> simp

/-- C4 witness: against the parent at number 10, the block at number 13
is three ahead and ValidateBlock rejects it with ChainForked. -/
theorem validateBlock_chainForked_iff_witness :
    ValidateBlock constHashFn plusThreeB prevB =
      some (ValidateResult.err BlockError.chainForked) := by
  exact (validateBlock_chainForked_iff constHashFn plusThreeB prevB
    (by decide)).mpr (by decide)

/-- C9. For every block with a positive number (every mined or validated
block; the hash of such a block is the hex64 output of signature.Hash),
the proof-of-work check at difficulty 0 accepts the hash: the compared
slices are both empty, so the puzzle is solved regardless of the nonce
and PoA mining terminates on its first attempt. -/
theorem difficulty_zero_solved (hashFn : BlockHeader → String) (b : Block)
    (hlen : (hashFn b.header).length = 64) (hnum : 1 ≤ b.header.number) :
    isHashSolved 0 (blockHash hashFn b) = some true := by
  have hb : blockHash hashFn b = hashFn b.header := by
    simp only [blockHash]
    rw [if_neg (by omega)]
  rw [hb]
  simp [isHashSolved, hlen]

/-- C9 witness: the concrete block at number 1 under the concrete
64-character hash function satisfies the difficulty-0 puzzle. -/
theorem difficulty_zero_solved_witness :
    isHashSolved 0 (blockHash constHashFn blockOne) = some true := by
  exact difficulty_zero_solved constHashFn blockOne (by decide) (by decide)

/-- C10. On the 64-character hashes produced for blocks, isHashSolved is
total exactly up to difficulty 17: for difficulty at most 17 it returns
a value, and for difficulty 18 or more (a value expressible in the
uint16 difficulty field of an untrusted peer block header) the slice of
the 17-character match constant is out of bounds and the function
panics, modelled by none; the panic propagates through ValidateBlock
whenever the fork and difficulty checks pass. -/
theorem isHashSolved_totality (d : Nat) (hash : String)
    (hlen : hash.length = 64) :
    (d ≤ 17 → ∃ r, isHashSolved d hash = some r) ∧
    (18 ≤ d → isHashSolved d hash = none) ∧
    (18 ≤ d → ∀ (hashFn : BlockHeader → String) (b prevBlock : Block),
      b.header.difficulty = d → (blockHash hashFn b).length = 64 →
      b.header.number < addW (addW prevBlock.header.number 1) 2 →
      ¬ b.header.difficulty < prevBlock.header.difficulty →
      ValidateBlock hashFn b prevBlock = none) := by
  refine ⟨fun hd => ?_, fun hd => ?_, fun hd hashFn b prevBlock hbd hblen hnf hnd => ?_⟩
  · refine ⟨decide (hash.toList.take d = matchZeros.toList.take d), ?_⟩
    unfold isHashSolved
    rw [if_neg (by omega), if_pos hd]
  · simp [isHashSolved, hlen]
    omega
  · simp only [ValidateBlock]
    rw [if_neg (by omega : ¬ b.header.number ≥ addW (addW prevBlock.header.number 1) 2)]
    rw [if_neg hnd]
    have : isHashSolved b.header.difficulty (blockHash hashFn b) = none := by
      simp [isHashSolved, hblen]
      omega
    rw [this]

/-- C10 witness: on the concrete 64-character hash, difficulty 17 still
evaluates while difficulty 18 panics, and ValidateBlock at difficulty 18
propagates the panic for the block at number 11 over the parent at
number 10. -/
theorem isHashSolved_totality_witness :
    (∃ r, isHashSolved 17 constHash64 = some r) ∧
    isHashSolved 18 constHash64 = none ∧
    ValidateBlock constHashFn ⟨⟨11, "", 0, "M", 18, 0, "", 0⟩, ""⟩ prevB =
      none := by
  refine ⟨(isHashSolved_totality 17 constHash64 (by decide)).1 (by decide),
    (isHashSolved_totality 18 constHash64 (by decide)).2.1 (by decide),
    (isHashSolved_totality 18 constHash64 (by decide)).2.2 (by decide)
      constHashFn ⟨⟨11, "", 0, "M", 18, 0, "", 0⟩, ""⟩ prevB (by decide)
      (by decide) (by decide) (by decide)⟩

/-- Helper: taking the values of the plain leaves of a list of items
gives back the items. -/
theorem map_value_map_leaf (l : List MItem) :
    (l.map (fun it => MLeaf.mk it.hsh it false)).map (fun lf => lf.value) = l := by
  induction l with
  | nil => rfl
  | cons x xs ih => simp [ih]

/-- C7 counterexample. The claim asserts Values returns the original
multiset for every non-empty item list. Values drops the last leaf by
hash equality rather than by the dup mark, so a two-item list whose two
items hash equally loses its last item even though no duplicate leaf was
added: building from the pair (dupItem, dupItem) returns only one
item. -/
theorem merkle_values_equal_hash_cex :
    (generateLeaves [dupItem, dupItem]).bind treeValues = some [dupItem] ∧
    (generateLeaves [dupItem, dupItem]).bind treeValues ≠
      some [dupItem, dupItem] := by
  decide

/-- C7 amended. For every non-empty list of items such that, when the
item count is even, the hashes of the last two items differ, building
the leaves (with the odd-count duplicate) and then calling Values
returns exactly the original list; in particular a single item always
comes back alone, the duplicate never appearing. -/
theorem merkle_values_roundtrip (items : List MItem) (hne : items ≠ [])
    (heven : items.length % 2 = 0 →
      ∀ a b rest, items.reverse = a :: b :: rest → a.hsh ≠ b.hsh) :
    (generateLeaves items).bind treeValues = some items := by
  obtain ⟨a, as, hrev⟩ : ∃ a as, items.reverse = a :: as := by
    cases h : items.reverse with
    | nil => exact absurd (by simpa using congrArg List.reverse h) hne
    | cons a as => exact ⟨a, as, rfl⟩
  have hitems : items = as.reverse ++ [a] := by
    have := congrArg List.reverse hrev
    simpa using this
  have hnotempty : items.isEmpty = false := by
    rw [hitems]
    simp
  by_cases hodd : items.length % 2 = 1
  · -- odd count: a marked duplicate of the last leaf is appended and
    -- Values drops it again, because its hash equals the last leaf hash
    have hlast : (items.map (fun it => MLeaf.mk it.hsh it false)).getLastD
        (MLeaf.mk 0 ⟨0, 0⟩ false) = MLeaf.mk a.hsh a false := by
      rw [hitems, List.map_append]
      exact List.getLastD_concat _ _ _
    have hgen : generateLeaves items =
        some (items.map (fun it => MLeaf.mk it.hsh it false) ++
          [MLeaf.mk a.hsh a true]) := by
      simp only [generateLeaves, hnotempty, Bool.false_eq_true, if_false,
        List.length_map, hodd, if_pos, hlast]
    have hscrut : (items.map (fun it => MLeaf.mk it.hsh it false) ++
        [MLeaf.mk a.hsh a true]).reverse =
        MLeaf.mk a.hsh a true :: MLeaf.mk a.hsh a false ::
          as.map (fun it => MLeaf.mk it.hsh it false) := by
      rw [List.reverse_append, ← List.map_reverse, hrev]
      simp
    rw [hgen, Option.some_bind]
    unfold treeValues
    rw [hscrut]
    simp only [List.map_append, List.map_cons, List.map_nil,
      List.dropLast_concat, map_value_map_leaf]
    simp
  · -- even count: no duplicate is appended and the last two leaf hashes
    -- differ by hypothesis, so nothing is dropped
    have heq : items.length % 2 = 0 := by omega
    obtain ⟨b, bs, hab⟩ : ∃ b bs, as = b :: bs := by
      cases h : as with
      | nil =>
        rw [hitems, h] at heq
        simp at heq
      | cons b bs => exact ⟨b, bs, rfl⟩
    have hgen : generateLeaves items =
        some (items.map (fun it => MLeaf.mk it.hsh it false)) := by
      simp only [generateLeaves, hnotempty, Bool.false_eq_true, if_false,
        List.length_map]
      rw [if_neg (by omega)]
    have hscrut : (items.map (fun it => MLeaf.mk it.hsh it false)).reverse =
        MLeaf.mk a.hsh a false :: MLeaf.mk b.hsh b false ::
          bs.map (fun it => MLeaf.mk it.hsh it false) := by
      rw [← List.map_reverse, hrev, hab]
      simp
    have hne2 : a.hsh ≠ b.hsh := heven heq a b bs (by rw [hrev, hab])
    rw [hgen, Option.some_bind]
    unfold treeValues
    rw [hscrut]
    simp only [map_value_map_leaf]
    simp [hne2]

/-- C7 witness: the single item (0, 7) comes back alone, and the
two-item list with distinct hashes comes back whole. -/
theorem merkle_values_roundtrip_witness :
    (generateLeaves [dupItem]).bind treeValues = some [dupItem] ∧
    (generateLeaves [MItem.mk 0 1, MItem.mk 1 2]).bind treeValues =
      some [MItem.mk 0 1, MItem.mk 1 2] := by
  refine ⟨merkle_values_roundtrip [dupItem] (by decide)
      (fun h => absurd h (by decide)), ?_⟩
  refine merkle_values_roundtrip [MItem.mk 0 1, MItem.mk 1 2] (by decide) ?_
  intro _ a b rest h
  simp only [List.reverse_cons, List.reverse_nil, List.nil_append,
    List.cons_append, List.cons.injEq] at h
  obtain ⟨ha, hb, _⟩ := h
  subst ha
  subst hb
  decide

/-- C5 evaluation at the failing input. With senders X (single tx, tip 1)
and Y (single tx, tip 50) and limit 1, the single row holds both
transactions and exceeds the limit, so the code sorts it by tip
ascending (byTip.Less uses the operator less-than) and takes the FIRST
entry: the tip-1 transaction, under either map iteration order. The
claim, the spec and the doc comment of tipSelect itself promise the
highest-tip transaction, the tip-50 one. -/
theorem tipSelect_takes_lowest_tip :
    tipSelect [("X", [txX1]), ("Y", [txY1])] 1 = [txX1] ∧
    tipSelect [("Y", [txY1]), ("X", [txX1])] 1 = [txX1] ∧
    txX1.tip = 1 ∧ txY1.tip = 50 := by
  refine ⟨?_, ?_, rfl, rfl⟩ <;>
    simp [tipSelect, buildRows, rowOf, tailsOf, sortByNonce, sortByTip,
      selectRows, txX1, txY1, List.insertionSort, List.orderedInsert,
      nonceLe, tipLe]

/-- Helper: every transaction inside any row built by the row loop comes
from one of the account slices of the map. -/
theorem mem_of_mem_buildRows (m : TxMap) :
    ∀ r ∈ buildRows m, ∀ b ∈ r, ∃ p ∈ m, b ∈ p.2 := by
  induction m using buildRows.induct with
  | case1 x hx =>
    intro r hr
    rw [buildRows, if_pos hx] at hr
    simp at hr
  | case2 x hx ih =>
    intro r hr b hb
    rw [buildRows, if_neg hx] at hr
    rcases List.mem_cons.mp hr with rfl | hr2
    · obtain ⟨p, hp, hhead⟩ : ∃ p ∈ x, p.2.head? = some b := by
        simpa [rowOf, List.mem_filterMap] using hb
      exact ⟨p, hp, List.mem_of_mem_head? (Option.mem_def.mpr hhead)⟩
    · obtain ⟨p2, hp2, hbp⟩ := ih r hr2 b hb
      obtain ⟨p, hp, rfl⟩ : ∃ p ∈ x, (p.1, p.2.tail) = p2 := by
        simpa [tailsOf, List.mem_map] using hp2
      exact ⟨p, hp, List.mem_of_mem_tail hbp⟩

/-- Helper: in a map with pairwise distinct keys, two entries with the
same key are the same entry. -/
theorem entry_unique (m : TxMap) (hkeys : m.Pairwise fun p q => p.1 ≠ q.1) :
    ∀ p ∈ m, ∀ q ∈ m, p.1 = q.1 → p = q := by
  induction m with
  | nil =>
    intro p hp
    simp at hp
  | cons a rest ih =>
    intro p hp q hq heq
    rcases List.mem_cons.mp hp with rfl | hp2 <;>
      rcases List.mem_cons.mp hq with rfl | hq2
    · rfl
    · exact absurd heq ((List.pairwise_cons.mp hkeys).1 q hq2)
    · exact absurd heq.symm ((List.pairwise_cons.mp hkeys).1 p hp2)
    · exact ih (List.pairwise_cons.mp hkeys).2 p hp2 q hq2 heq

/-- Helper: when the map has distinct keys, each slice holds only
transactions of its own sender, and each slice is strictly ascending in
nonce, then every row has pairwise distinct senders, and across the row
sequence a sender only ever appears with strictly growing nonces. -/
theorem buildRows_sender_good (m : TxMap) :
    m.Pairwise (fun p q => p.1 ≠ q.1) →
    (∀ p ∈ m, ∀ t ∈ p.2, t.fromSig = some p.1) →
    (∀ p ∈ m, p.2.Pairwise fun a b => a.nonce < b.nonce) →
    (∀ r ∈ buildRows m, r.Pairwise fun a b => a.fromSig ≠ b.fromSig) ∧
    (buildRows m).Pairwise (fun r1 r2 => ∀ a ∈ r1, ∀ b ∈ r2,
      a.fromSig = b.fromSig → a.nonce < b.nonce) := by
  induction m using buildRows.induct with
  | case1 x hx =>
    intro _ _ _
    rw [buildRows, if_pos hx]
    exact ⟨by simp, by simp⟩
  | case2 x hx ih =>
    intro hkeys hgroup hsorted
    have hkeys2 : (tailsOf x).Pairwise (fun p q => p.1 ≠ q.1) := by
      simpa [tailsOf, List.pairwise_map] using hkeys
    have hgroup2 : ∀ p ∈ tailsOf x, ∀ t ∈ p.2, t.fromSig = some p.1 := by
      intro p hp t ht
      obtain ⟨q, hq, rfl⟩ := List.mem_map.mp hp
      exact hgroup q hq t (List.mem_of_mem_tail ht)
    have hsorted2 : ∀ p ∈ tailsOf x, p.2.Pairwise fun a b => a.nonce < b.nonce := by
      intro p hp
      obtain ⟨q, hq, rfl⟩ := List.mem_map.mp hp
      exact List.Pairwise.sublist (List.tail_sublist q.2) (hsorted q hq)
    obtain ⟨ih1, ih2⟩ := ih hkeys2 hgroup2 hsorted2
    have hrowS : (rowOf x).Pairwise fun a b => a.fromSig ≠ b.fromSig := by
      rw [rowOf, List.pairwise_filterMap]
      refine hkeys.imp_of_mem ?_
      intro p q hp hq hne b hb b2 hb2
      have hf1 := hgroup p hp b (List.mem_of_mem_head? hb)
      have hf2 := hgroup q hq b2 (List.mem_of_mem_head? hb2)
      rw [hf1, hf2]
      exact fun hc => hne (Option.some.inj hc)
    rw [buildRows, if_neg hx]
    constructor
    · intro r hr
      rcases List.mem_cons.mp hr with rfl | hr2
      · exact hrowS
      · exact ih1 r hr2
    · rw [List.pairwise_cons]
      refine ⟨?_, ih2⟩
      intro r2 hr2 a ha b hb heq
      obtain ⟨p, hp, hhead⟩ : ∃ p ∈ x, p.2.head? = some a := by
        simpa [rowOf, List.mem_filterMap] using ha
      obtain ⟨q2, hq2, hbq⟩ := mem_of_mem_buildRows (tailsOf x) r2 hr2 b hb
      obtain ⟨q, hq, rfl⟩ : ∃ q ∈ x, (q.1, q.2.tail) = q2 := by
        simpa [tailsOf, List.mem_map] using hq2
      have hfa : a.fromSig = some p.1 :=
        hgroup p hp a (List.mem_of_mem_head? (Option.mem_def.mpr hhead))
      have hfb : b.fromSig = some q.1 := hgroup q hq b (List.mem_of_mem_tail hbq)
      have hpq : p = q := entry_unique x hkeys p hp q hq (by
        rw [hfa, hfb] at heq
        exact Option.some.inj heq)
      subst hpq
      have hps := hsorted p hp
      cases hp2 : p.2 with
      | nil =>
        rw [hp2] at hhead
        simp at hhead
      | cons y ys =>
        have hay : y = a := by
          rw [hp2] at hhead
          simpa using hhead
        subst hay
        rw [hp2] at hps hbq
        exact List.rel_of_pairwise_cons hps (by simpa using hbq)

/-- Helper: the selection loop preserves the per-sender nonce order: if
the accumulated output is ordered, is ordered against everything still
selectable, every row has distinct senders, and the rows are ordered
against each other, then the loop result is ordered. -/
theorem selectRows_nonce_pairwise (howMany : Nat) (rows : List (List BlockTx)) :
    ∀ final : List BlockTx,
    final.Pairwise (fun a b => a.fromSig = b.fromSig → a.nonce < b.nonce) →
    (∀ a ∈ final, ∀ r ∈ rows, ∀ b ∈ r,
      a.fromSig = b.fromSig → a.nonce < b.nonce) →
    (∀ r ∈ rows, r.Pairwise fun a b => a.fromSig ≠ b.fromSig) →
    rows.Pairwise (fun r1 r2 => ∀ a ∈ r1, ∀ b ∈ r2,
      a.fromSig = b.fromSig → a.nonce < b.nonce) →
    (selectRows howMany rows final).Pairwise
      (fun a b => a.fromSig = b.fromSig → a.nonce < b.nonce) := by
  induction rows with
  | nil =>
    intro final hfin _ _ _
    simpa [selectRows] using hfin
  | cons row rest ih =>
    intro final hfin hcross hrowsS hrowsR
    simp only [selectRows]
    have hperm := List.perm_insertionSort tipLe row
    split_ifs with hlen
    · rw [List.pairwise_append]
      refine ⟨hfin, ?_, ?_⟩
      · have hS : (sortByTip row).Pairwise (fun a b => a.fromSig ≠ b.fromSig) :=
          (List.Perm.pairwise_iff (fun h => Ne.symm h) hperm).mpr
            (hrowsS row (List.mem_cons_self row rest))
        exact (List.Pairwise.sublist (List.take_sublist _ _) hS).imp
          (fun hne heq => absurd heq hne)
      · intro a ha b hb
        have hbrow : b ∈ row := hperm.subset (List.take_subset _ _ hb)
        exact hcross a ha row (List.mem_cons_self row rest) b hbrow
    · apply ih
      · rw [List.pairwise_append]
        refine ⟨hfin, (hrowsS row (List.mem_cons_self row rest)).imp
          (fun hne heq => absurd heq hne), ?_⟩
        intro a ha b hb
        exact hcross a ha row (List.mem_cons_self row rest) b hb
      · intro a ha r hr b hb
        rcases List.mem_append.mp ha with haf | har
        · exact hcross a haf r (List.mem_cons_of_mem _ hr) b hb
        · exact List.rel_of_pairwise_cons hrowsR hr a har b hb
      · intro r hr
        exact hrowsS r (List.mem_cons_of_mem _ hr)
      · exact (List.pairwise_cons.mp hrowsR).2

/-- C6. For every mempool content (pairwise distinct account keys, every
slice holding only transactions of its own sender, at most one entry per
sender and nonce) and every limit, in the output of tipSelect the
transactions of any single sender appear in strictly ascending nonce
order: whenever two output positions share a sender, the earlier one
carries the strictly smaller nonce. -/
theorem tipSelect_nonce_order (m : TxMap) (howMany : Nat)
    (hkeys : m.Pairwise fun p q => p.1 ≠ q.1)
    (hgroup : ∀ p ∈ m, ∀ t ∈ p.2, t.fromSig = some p.1)
    (hnonces : ∀ p ∈ m, p.2.Pairwise fun a b => a.nonce ≠ b.nonce) :
    (tipSelect m howMany).Pairwise
      (fun a b => a.fromSig = b.fromSig → a.nonce < b.nonce) := by
  have hkeys2 : (m.map (fun p => (p.1, sortByNonce p.2))).Pairwise
      (fun p q => p.1 ≠ q.1) := by
    simpa [List.pairwise_map] using hkeys
  have hgroup2 : ∀ p ∈ m.map (fun p => (p.1, sortByNonce p.2)), ∀ t ∈ p.2,
      t.fromSig = some p.1 := by
    intro p hp t ht
    obtain ⟨q, hq, rfl⟩ := List.mem_map.mp hp
    exact hgroup q hq t ((List.perm_insertionSort nonceLe q.2).subset ht)
  have hsorted2 : ∀ p ∈ m.map (fun p => (p.1, sortByNonce p.2)),
      p.2.Pairwise fun a b => a.nonce < b.nonce := by
    intro p hp
    obtain ⟨q, hq, rfl⟩ := List.mem_map.mp hp
    have hsor : (sortByNonce q.2).Pairwise nonceLe :=
      List.sorted_insertionSort nonceLe q.2
    have hneq : (sortByNonce q.2).Pairwise (fun a b => a.nonce ≠ b.nonce) :=
      (List.Perm.pairwise_iff (fun h => Ne.symm h)
        (List.perm_insertionSort nonceLe q.2)).mpr (hnonces q hq)
    exact (hsor.and hneq).imp (fun h => Nat.lt_of_le_of_ne h.1 h.2)
  obtain ⟨h1, h2⟩ := buildRows_sender_good (m.map (fun p => (p.1, sortByNonce p.2)))
    hkeys2 hgroup2 hsorted2
  unfold tipSelect
  apply selectRows_nonce_pairwise
  · exact List.Pairwise.nil
  · intro a ha
    simp at ha
  · exact h1
  · exact h2

/-- C6 witness: the concrete mempool with the X slice given out of nonce
order and a third-party Y transaction: the selection of three ends up
with the two X transactions in ascending nonce order. -/
theorem tipSelect_nonce_order_witness :
    (tipSelect wMempool 3).Pairwise
      (fun a b => a.fromSig = b.fromSig → a.nonce < b.nonce) := by
  exact tipSelect_nonce_order wMempool 3 (by decide) (by decide) (by decide)

/-- C8 counterexample. The claim asserts the node proceeds to mine if
and only if the selected host equals its own host. runPoaOperation also
returns early when mining is disallowed or the mempool is empty: with a
lone peer (the node itself) the selection always picks this host, yet
with an empty mempool no mining happens. -/
theorem poa_proceeds_iff_cex :
    selection (KnownPeers [⟨"a"⟩]) "h" = some "a" ∧
    runPoaProceeds (selection (KnownPeers [⟨"a"⟩]) "h") "a" true 0 = false := by
  decide

/-- C8 amended. For every peer set whose hosts are non-empty strings,
the PoA selection over KnownPeers equals the deterministic leader of the
spec (sorted hosts including self, FNV-1a of the latest block hash,
index hash mod host count), and the node proceeds to mine exactly when
the selected host equals its own host AND mining is allowed AND the
mempool is non-empty. -/
theorem poa_selection_deterministic (ps : List Peer)
    (selfHost latestHash : String) (allowed : Bool) (mlen : Nat)
    (hne : ∀ p ∈ ps, p.Host ≠ "") :
    selection (KnownPeers ps) latestHash =
      specPoaLeader (ps.map (fun p => p.Host)) latestHash ∧
    (runPoaProceeds (selection (KnownPeers ps) latestHash) selfHost allowed
        mlen = true ↔
      (selection (KnownPeers ps) latestHash = some selfHost ∧
        allowed = true ∧ mlen ≠ 0)) := by
  have hcopy : KnownPeers ps = ps := by
    unfold KnownPeers setCopy
    refine List.filter_eq_self.mpr ?_
    intro p hp
    simpa using hne p hp
  rw [hcopy]
  refine ⟨rfl, ?_⟩
  simp only [runPoaProceeds, Bool.and_eq_true, beq_iff_eq, bne_iff_ne, ne_eq,
    and_assoc]

/-- C8 witness: with hosts b and a and self host a, the selection over
the copied peer set matches the spec leader formula, and the mining gate
reduces to the selected-equals-self test once mining is allowed and the
mempool holds one transaction. -/
theorem poa_selection_deterministic_witness :
    selection (KnownPeers [⟨"b"⟩, ⟨"a"⟩]) "h" = specPoaLeader ["b", "a"] "h" ∧
    (runPoaProceeds (selection (KnownPeers [⟨"b"⟩, ⟨"a"⟩]) "h") "a" true 1 =
        true ↔
      (selection (KnownPeers [⟨"b"⟩, ⟨"a"⟩]) "h" = some "a" ∧
        true = true ∧ (1 : Nat) ≠ 0)) := by
  exact poa_selection_deterministic [⟨"b"⟩, ⟨"a"⟩] "a" "h" true 1 (by decide)

end Blockchain
